import Mathlib

/-!
Verification of the cheatmd specification claims against a shallow embedding
of the source (internal/parser/parser.go, internal/ui/resolve.go,
internal/ui/main_model.go, internal/executor/executor.go).

Strings are modelled as lists of characters so that every operation is
structurally recursive and kernel-computable.  Go maps are modelled as
association lists; the Go source iterates maps in unspecified order, and the
folds here apply the entries in list order.  Functions that the Go source
writes as index loops carry an extra Nat fuel argument equal to the remaining
input length; the fuel only makes the loop structurally recursive and never
runs out on the initial call.
-/

namespace Cheatmd

/-- Strings as lists of characters. -/
abbrev Str := List Char

/-- Converts a Lean string literal into the list-of-characters model. -/
def strL (s : String) : Str := s.data

/-- Whitespace recognised by Go's strings.TrimSpace and strings.Fields
(unicode.IsSpace on ASCII): space, tab, newline, vertical tab, form feed,
carriage return. -/
def isGoSpace (c : Char) : Bool :=
  c == ' ' || c == '\t' || c == '\n' || c == '\x0b' || c == '\x0c' || c == '\r'

/-- Leading-whitespace trim. -/
def trimLeftSpace (s : Str) : Str := s.dropWhile isGoSpace

/-- Trailing-whitespace trim. -/
def trimRightSpace (s : Str) : Str := (s.reverse.dropWhile isGoSpace).reverse

/-- Go strings.TrimSpace. -/
def trimSpace (s : Str) : Str := trimRightSpace (trimLeftSpace s)

/-- One pass of Go strings.ReplaceAll: scan left to right, replacing each
leftmost non-overlapping occurrence of pat by rep.  Fuel decreases by one per
scanned position; the replaced text is skipped with List.drop exactly as the
Go loop advances its index past the pattern. -/
def replaceAllAux (pat rep : Str) : Nat → Str → Str
  | _, [] => []
  | 0, s => s
  | fuel+1, c :: rest =>
    if !pat.isEmpty && pat.isPrefixOf (c :: rest) then
      rep ++ replaceAllAux pat rep fuel (rest.drop (pat.length - 1))
    else
      c :: replaceAllAux pat rep fuel rest

/-- Go strings.ReplaceAll(s, pat, rep); the source only ever replaces the
non-empty patterns "$"+name and the escaped dollar. -/
def replaceAll (s pat rep : Str) : Str := replaceAllAux pat rep s.length s

/-- Go strings.Contains(s, pat). -/
def containsSub : Str → Str → Bool
  | [], pat => pat.isEmpty
  | c :: rest, pat => pat.isPrefixOf (c :: rest) || containsSub rest pat

/-- Go strings.SplitN(s, sep, 2) when sep occurs in s: the text before the
first occurrence paired with the text after it. -/
def splitFirst : Str → Str → Str × Str
  | [], _ => ([], [])
  | c :: rest, pat =>
    if pat.isPrefixOf (c :: rest) then ([], (c :: rest).drop pat.length)
    else
      let p := splitFirst rest pat
      (c :: p.1, p.2)

/-- Accumulator for fields: the current word is collected reversed. -/
def fieldsAux : Str → Str → List Str
  | cur, [] => if cur.isEmpty then [] else [cur.reverse]
  | cur, c :: rest =>
    if isGoSpace c then
      if cur.isEmpty then fieldsAux [] rest else cur.reverse :: fieldsAux [] rest
    else fieldsAux (c :: cur) rest

/-- Go strings.Fields: split around runs of whitespace. -/
def fields (s : Str) : List Str := fieldsAux [] s

/-- ASCII case of Go strings.ToLower on one character. -/
def lowerChar (c : Char) : Char :=
  if 65 ≤ c.toNat && c.toNat ≤ 90 then Char.ofNat (c.toNat + 32) else c

/-- ASCII case of Go strings.ToLower. -/
def lowerStr (s : Str) : Str := s.map lowerChar

/-- internal/ui/resolve.go isVarChar(c, first=true): ASCII letter ('a'-'z',
'A'-'Z', code points 97-122 and 65-90) or underscore (95). -/
def isVarCharFirst (c : Char) : Bool :=
  (97 ≤ c.toNat && c.toNat ≤ 122) || (65 ≤ c.toNat && c.toNat ≤ 90) || c.toNat == 95

/-- internal/ui/resolve.go isVarChar(c, first=false): also digits ('0'-'9',
code points 48-57). -/
def isVarCharRest (c : Char) : Bool :=
  isVarCharFirst c || (48 ≤ c.toNat && c.toNat ≤ 57)

/-- internal/parser/parser.go isWordChar: [a-zA-Z0-9_]. -/
def isWordChar (c : Char) : Bool :=
  (97 ≤ c.toNat && c.toNat ≤ 122) || (65 ≤ c.toNat && c.toNat ≤ 90) ||
  (48 ≤ c.toNat && c.toNat ≤ 57) || c.toNat == 95

/-- A Go map[string]string modelled as an association list. -/
abbrev Scope := List (Str × Str)

/-- Reading scope[name], with Go's zero value for a missing key. -/
def lookupScope (scope : Scope) (name : Str) : Str :=
  match scope.find? (fun p => p.1 == name) with
  | some p => p.2
  | none => []

/-- internal/executor/executor.go SubstituteVars: the per-entry
strings.ReplaceAll loop, identical to the inline substitution loops in
evaluateCondition and resolveVar. -/
def substituteVars (s : Str) (scope : Scope) : Str :=
  scope.foldl (fun acc p => replaceAll acc ('$' :: p.1) p.2) s

/-- The literal text of the equality operator. -/
def eqeqS : Str := ['=', '=']

/-- The literal text of the inequality operator. -/
def neqS : Str := ['!', '=']

/-- internal/ui/resolve.go evaluateCondition: trim, substitute the scope
entries, then branch on the first contained operator. -/
def evaluateCondition (condition : Str) (scope : Scope) : Bool :=
  let c := substituteVars (trimSpace condition) scope
  if containsSub c eqeqS then
    (trimSpace (splitFirst c eqeqS).1) == (trimSpace (splitFirst c eqeqS).2)
  else if containsSub c neqS then
    !((trimSpace (splitFirst c neqS).1) == (trimSpace (splitFirst c neqS).2))
  else !c.isEmpty

/-- The variable-name scan of resolve.go: the first character must satisfy
isVarChar(c, true), the following ones isVarChar(c, false). -/
def takeVarName : Str → Str
  | [] => []
  | c :: rest => if isVarCharFirst c then c :: rest.takeWhile isVarCharRest else []

/-- The substitution described by claim C1's words: every $name token
(maximal run of variable characters) is replaced by its scope value, names
missing from the scope substituting as the empty string.  This definition
follows the claim's words, to be compared with the source's
evaluateCondition. -/
def substAllRefsClaim (scope : Scope) : Nat → Str → Str
  | _, [] => []
  | 0, s => s
  | fuel+1, c :: rest =>
    if c == '$' && !(takeVarName rest).isEmpty then
      lookupScope scope (takeVarName rest) ++
        substAllRefsClaim scope fuel (rest.drop (takeVarName rest).length)
    else c :: substAllRefsClaim scope fuel rest

/-- Claim C1's condition evaluation, following the claim's words: substitute
every $name (unresolved as empty), then branch, the truthy branch testing
the trimmed substituted text. -/
def evalConditionClaim (condition : Str) (scope : Scope) : Bool :=
  let c := substAllRefsClaim scope condition.length condition
  if containsSub c eqeqS then
    (trimSpace (splitFirst c eqeqS).1) == (trimSpace (splitFirst c eqeqS).2)
  else if containsSub c neqS then
    !((trimSpace (splitFirst c neqS).1) == (trimSpace (splitFirst c neqS).2))
  else !(trimSpace c).isEmpty

end Cheatmd
namespace Cheatmd

theorem containsSub_length_le (s pat : Str) (h : containsSub s pat = true) :
    pat.length ≤ s.length := by
  induction s with
  | nil =>
    simp [containsSub, List.isEmpty_iff] at h
    simp [h]
  | cons c rest ih =>
    simp only [containsSub, Bool.or_eq_true] at h
    rcases h with h | h
    · exact (List.isPrefixOf_iff_prefix.mp h).length_le
    · exact le_trans (ih h) (by simp)

theorem not_containsSub_dropLast (pat : Str) (hne : pat ≠ []) :
    containsSub pat.dropLast pat = false := by
  cases hc : containsSub pat.dropLast pat with
  | false => rfl
  | true =>
    exfalso
    have h1 := containsSub_length_le _ _ hc
    have h2 : pat.dropLast.length = pat.length - 1 := List.length_dropLast pat
    have h3 : 0 < pat.length := List.length_pos.mpr hne
    omega

theorem splitFirst_spec (s pat : Str) (hne : pat ≠ []) (h : containsSub s pat = true) :
    s = (splitFirst s pat).1 ++ pat ++ (splitFirst s pat).2 ∧
      containsSub ((splitFirst s pat).1 ++ pat.dropLast) pat = false := by
  induction s with
  | nil =>
    simp [containsSub, List.isEmpty_iff] at h
    exact absurd h hne
  | cons c rest ih =>
    by_cases hp : pat.isPrefixOf (c :: rest) = true
    · have hpre : pat <+: c :: rest := List.isPrefixOf_iff_prefix.mp hp
      obtain ⟨t, ht⟩ := hpre
      have hsf : splitFirst (c :: rest) pat = ([], (c :: rest).drop pat.length) := by
        simp [splitFirst, hp]
      rw [hsf]
      constructor
      · have hdrop : (c :: rest).drop pat.length = t := by
          rw [← ht, List.drop_left]
        rw [hdrop]
        simpa using ht.symm
      · simpa using not_containsSub_dropLast pat hne
    · have hrest : containsSub rest pat = true := by
        have h' := h
        simp only [containsSub, Bool.or_eq_true] at h'
        rcases h' with h' | h'
        · exact absurd h' hp
        · exact h'
      obtain ⟨ihEq, ihNc⟩ := ih hrest
      have hsf : splitFirst (c :: rest) pat =
          (c :: (splitFirst rest pat).1, (splitFirst rest pat).2) := by
        simp [splitFirst, hp]
      rw [hsf]
      constructor
      · show c :: rest = (c :: (splitFirst rest pat).1) ++ pat ++ (splitFirst rest pat).2
        simpa using ihEq
      · show containsSub ((c :: (splitFirst rest pat).1) ++ pat.dropLast) pat = false
        have hnp : pat.isPrefixOf ((c :: (splitFirst rest pat).1) ++ pat.dropLast) = false := by
          cases hq : pat.isPrefixOf ((c :: (splitFirst rest pat).1) ++ pat.dropLast) with
          | false => rfl
          | true =>
            exfalso
            have h1 : pat <+: (c :: (splitFirst rest pat).1) ++ pat.dropLast :=
              List.isPrefixOf_iff_prefix.mp hq
            have h2 : (splitFirst rest pat).1 ++ pat.dropLast <+: rest := by
              conv_rhs => rw [ihEq]
              obtain ⟨u, hu⟩ := List.dropLast_prefix pat
              refine ⟨u ++ (splitFirst rest pat).2, ?_⟩
              simp only [List.append_assoc]
              rw [← List.append_assoc pat.dropLast u, hu]
            have h3' : c :: ((splitFirst rest pat).1 ++ pat.dropLast) <+: c :: rest :=
              List.cons_prefix_cons.mpr ⟨rfl, h2⟩
            have h3 : (c :: (splitFirst rest pat).1) ++ pat.dropLast <+: c :: rest := by
              simpa using h3'
            have h4 : pat <+: c :: rest := h1.trans h3
            rw [← List.isPrefixOf_iff_prefix] at h4
            exact absurd h4 (by simp [hp])
        simp only [List.cons_append] at hnp ⊢
        simp only [containsSub, hnp, Bool.false_or]
        exact ihNc

end Cheatmd
namespace Cheatmd

/-- Claim C1 (amended): condition evaluation trims the condition, substitutes
the scope entries (names absent from the scope are left in place, not
replaced by empty), then: if the substituted text contains the equality
operator it splits at the first occurrence, trims both sides and returns
their equality; else the same for inequality; otherwise it returns whether
the substituted text (trimmed before substitution only) is non-empty. -/
theorem claim_C1 (condition : Str) (scope : Scope) :
    (containsSub (substituteVars (trimSpace condition) scope) eqeqS = true →
      ∃ l r, substituteVars (trimSpace condition) scope = l ++ eqeqS ++ r ∧
        containsSub (l ++ ['=']) eqeqS = false ∧
        evaluateCondition condition scope = (trimSpace l == trimSpace r))
    ∧ (containsSub (substituteVars (trimSpace condition) scope) eqeqS = false →
       containsSub (substituteVars (trimSpace condition) scope) neqS = true →
      ∃ l r, substituteVars (trimSpace condition) scope = l ++ neqS ++ r ∧
        containsSub (l ++ ['!']) neqS = false ∧
        evaluateCondition condition scope = !(trimSpace l == trimSpace r))
    ∧ (containsSub (substituteVars (trimSpace condition) scope) eqeqS = false →
       containsSub (substituteVars (trimSpace condition) scope) neqS = false →
      evaluateCondition condition scope =
        !(substituteVars (trimSpace condition) scope).isEmpty) := by
  refine ⟨fun h => ?_, fun h1 h2 => ?_, fun h1 h2 => ?_⟩
  · obtain ⟨hEq, hNc⟩ :=
      splitFirst_spec (substituteVars (trimSpace condition) scope) eqeqS (by decide) h
    refine ⟨(splitFirst (substituteVars (trimSpace condition) scope) eqeqS).1,
      (splitFirst (substituteVars (trimSpace condition) scope) eqeqS).2, hEq, ?_, ?_⟩
    · simpa using hNc
    · simp only [evaluateCondition, h, if_true]
  · obtain ⟨hEq, hNc⟩ :=
      splitFirst_spec (substituteVars (trimSpace condition) scope) neqS (by decide) h2
    refine ⟨(splitFirst (substituteVars (trimSpace condition) scope) neqS).1,
      (splitFirst (substituteVars (trimSpace condition) scope) neqS).2, hEq, ?_, ?_⟩
    · simpa using hNc
    · simp only [evaluateCondition, h1, h2, if_true, if_false, Bool.false_eq_true]
  · simp only [evaluateCondition, h1, h2, if_false, Bool.false_eq_true]

/-- Claim C1 counterexample: the claim as stated says an unresolved variable
substitutes as empty and the truthy branch tests the trimmed substituted
text; the source leaves unresolved names in place and does not re-trim, so
evaluateCondition differs from the claim's described evaluation at the
condition consisting of one unresolved (resp. whitespace-valued) variable. -/
theorem claim_C1_counterexample :
    evaluateCondition (strL ("$x")) [] = true ∧
      evalConditionClaim (strL ("$x")) [] = false ∧
      evaluateCondition (strL ("$x")) [(strL ("x"), strL (" "))] = true ∧
      evalConditionClaim (strL ("$x")) [(strL ("x"), strL (" "))] = false :=
  ⟨by decide, by decide, by decide, by decide⟩

/-- Witness for claim C1 at the concrete condition "a == b" and empty scope. -/
theorem claim_C1_witness :
    ∃ l r, substituteVars (trimSpace (strL ("a == b"))) [] = l ++ eqeqS ++ r ∧
      containsSub (l ++ ['=']) eqeqS = false ∧
      evaluateCondition (strL ("a == b")) [] = (trimSpace l == trimSpace r) :=
  (claim_C1 (strL ("a == b")) []).1 (by decide)

end Cheatmd
namespace Cheatmd

/-- internal/parser/parser.go VarDef: Name, Shell (= syntax), Literal
(:= syntax), Args (after the option separator), Condition (enclosing if/fi
expression). -/
structure VarDef where
  name : Str
  shell : Str := []
  literal : Str := []
  args : Str := []
  condition : Str := []
deriving DecidableEq

/-- The scan of internal/ui/resolve.go selectVariant: the accumulator holds
the first unconditional variant seen so far (the default); a conditional
variant whose condition evaluates true returns immediately. -/
def selectVariantAux (scope : Scope) : List VarDef → Option VarDef → Option VarDef
  | [], dflt => dflt
  | v :: rest, dflt =>
    if v.condition.isEmpty then
      selectVariantAux scope rest (if dflt.isNone then some v else dflt)
    else if evaluateCondition v.condition scope then some v
    else selectVariantAux scope rest dflt

/-- internal/ui/resolve.go selectVariant. -/
def selectVariant (variants : List VarDef) (scope : Scope) : Option VarDef :=
  selectVariantAux scope variants none

/-- The variant decision of internal/ui/resolve.go resolveAllVariables and
internal/ui/main_model.go prepareCurrentVar: when selectVariant returns nil
and every variant is conditional (and there is at least one), the variable is
skipped (none, resolved with the empty value); otherwise the primary def is
the fallback. -/
def activeVariant (primary : VarDef) (variants : List VarDef) (scope : Scope) :
    Option VarDef :=
  match selectVariant variants scope with
  | some d => some d
  | none =>
    if variants.all (fun v => !v.condition.isEmpty) && !variants.isEmpty then none
    else some primary

/-- The literal text of an escaped dollar. -/
def escDollar : Str := ['\\', '$']

/-- internal/executor/executor.go BuildFinalCommand: substitute all scope
variables, then rewrite every remaining escaped dollar to a dollar. -/
def buildFinalCommand (command : Str) (scope : Scope) : Str :=
  replaceAll (substituteVars command scope) escDollar ['$']

theorem replaceAll_self (s rep : Str) (h : s ≠ []) : replaceAll s s rep = rep := by
  match s with
  | c :: rest =>
    show replaceAllAux (c :: rest) rep (rest.length + 1) (c :: rest) = rep
    have hpre : (c :: rest).isPrefixOf (c :: rest) = true :=
      List.isPrefixOf_iff_prefix.mpr (List.prefix_refl _)
    simp only [replaceAllAux, hpre, List.isEmpty_cons, Bool.not_false, Bool.true_and, if_true]
    have : rest.drop ((c :: rest).length - 1) = [] := by
      simp [List.drop_length]
    rw [this]
    simp [replaceAllAux]

theorem selectVariantAux_or (scope : Scope) (l : List VarDef) (dflt : Option VarDef) :
    selectVariantAux scope l dflt =
      Option.or
        (l.find? (fun v => !v.condition.isEmpty && evaluateCondition v.condition scope))
        (Option.or dflt (l.find? (fun v => v.condition.isEmpty))) := by
  induction l generalizing dflt with
  | nil => cases dflt <;> simp [selectVariantAux]
  | cons v rest ih =>
    by_cases hc : v.condition.isEmpty = true
    · have hP : (!v.condition.isEmpty && evaluateCondition v.condition scope) = false := by
        simp [hc]
      rw [show selectVariantAux scope (v :: rest) dflt =
          selectVariantAux scope rest (if dflt.isNone then some v else dflt) by
        simp [selectVariantAux, hc]]
      rw [ih]
      rw [show (v :: rest).find?
            (fun v => !v.condition.isEmpty && evaluateCondition v.condition scope) =
          rest.find? (fun v => !v.condition.isEmpty && evaluateCondition v.condition scope) from
        List.find?_cons_of_neg _ (by simp [hP])]
      rw [show (v :: rest).find? (fun v => v.condition.isEmpty) = some v from
        List.find?_cons_of_pos _ hc]
      cases dflt <;> rfl
    · have hcb : v.condition.isEmpty = false := by simpa using hc
      by_cases he : evaluateCondition v.condition scope = true
      · have hP : (!v.condition.isEmpty && evaluateCondition v.condition scope) = true := by
          simp [hcb, he]
        rw [show selectVariantAux scope (v :: rest) dflt = some v by
          simp [selectVariantAux, hcb, he]]
        rw [show (v :: rest).find?
              (fun v => !v.condition.isEmpty && evaluateCondition v.condition scope) = some v from
          List.find?_cons_of_pos _ hP]
        rfl
      · have heb : evaluateCondition v.condition scope = false := by simpa using he
        rw [show selectVariantAux scope (v :: rest) dflt = selectVariantAux scope rest dflt by
          simp [selectVariantAux, hcb, heb]]
        rw [ih]
        rw [show (v :: rest).find?
              (fun v => !v.condition.isEmpty && evaluateCondition v.condition scope) =
            rest.find? (fun v => !v.condition.isEmpty && evaluateCondition v.condition scope) from
          List.find?_cons_of_neg _ (by simp [hcb, heb])]
        rw [show (v :: rest).find? (fun v => v.condition.isEmpty) =
            rest.find? (fun v => v.condition.isEmpty) from
          List.find?_cons_of_neg _ (by simp [hcb])]

/-- Claim C2: variants are scanned in declaration order and the first variant
with a satisfied condition wins; with no satisfied conditional variant the
first unconditional variant is the default; when every variant is conditional
and none matches the variable resolves to the empty value (none), and its
dollar-reference in the final command substitutes to the empty string. -/
theorem claim_C2 (primary : VarDef) (variants : List VarDef) (scope : Scope) (name : Str) :
    selectVariant variants scope =
      Option.or
        (variants.find? (fun v => !v.condition.isEmpty && evaluateCondition v.condition scope))
        (variants.find? (fun v => v.condition.isEmpty))
    ∧ ((∀ v ∈ variants, v.condition ≠ [] ∧ evaluateCondition v.condition scope = false) →
        variants ≠ [] → activeVariant primary variants scope = none)
    ∧ buildFinalCommand ('$' :: name) [(name, [])] = [] := by
  refine ⟨?_, fun hall hne => ?_, ?_⟩
  · rw [selectVariant, selectVariantAux_or]
    rfl
  · have hfP : variants.find?
        (fun v => !v.condition.isEmpty && evaluateCondition v.condition scope) = none := by
      rw [List.find?_eq_none]
      intro v hv
      simp [(hall v hv).2]
    have hfQ : variants.find? (fun v => v.condition.isEmpty) = none := by
      rw [List.find?_eq_none]
      intro v hv
      simp [List.isEmpty_iff, (hall v hv).1]
    have hsel : selectVariant variants scope = none := by
      rw [selectVariant, selectVariantAux_or, hfP, hfQ]
      rfl
    have hallb : variants.all (fun v => !v.condition.isEmpty) = true := by
      rw [List.all_eq_true]
      intro v hv
      simp [List.isEmpty_iff, (hall v hv).1]
    rw [activeVariant, hsel]
    simp [hallb, List.isEmpty_iff, hne]
  · show replaceAll (substituteVars ('$' :: name) [(name, [])]) escDollar ['$'] = []
    have h1 : substituteVars ('$' :: name) [(name, [])] = [] := by
      show replaceAll ('$' :: name) ('$' :: name) [] = []
      exact replaceAll_self _ _ (by simp)
    rw [h1]
    rfl

/-- Witness for claim C2: one conditional variant whose condition fails under
the empty scope is skipped as resolved-empty. -/
theorem claim_C2_witness :
    activeVariant ⟨strL ("x"), [], [], [], []⟩
      [⟨strL ("x"), [], [], [], strL ("$m == k")⟩] [] = none :=
  (claim_C2 ⟨strL ("x"), [], [], [], []⟩
      [⟨strL ("x"), [], [], [], strL ("$m == k")⟩] [] (strL ("x"))).2.1
    (by decide) (by decide)

end Cheatmd
namespace Cheatmd

/-- The loop of internal/ui/resolve.go findAllVars; prev is the previously
scanned character (none at the start), used for the escaped-dollar check. -/
def findAllVarsAux : Nat → Option Char → List Str → Str → List Str
  | _, _, _, [] => []
  | 0, _, _, _ => []
  | fuel+1, prev, seen, c :: rest =>
    if c == '$' && !rest.isEmpty && !(prev == some '\\') then
      if (takeVarName rest).isEmpty then
        findAllVarsAux fuel (some c) seen rest
      else if seen.contains (takeVarName rest) then
        findAllVarsAux fuel (some ((takeVarName rest).getLastD c)) seen
          (rest.drop (takeVarName rest).length)
      else
        takeVarName rest ::
          findAllVarsAux fuel (some ((takeVarName rest).getLastD c))
            (takeVarName rest :: seen) (rest.drop (takeVarName rest).length)
    else
      findAllVarsAux fuel (some c) seen rest

/-- internal/ui/resolve.go findAllVars: every unescaped dollar-reference,
quoting ignored. -/
def findAllVars (cmd : Str) : List Str :=
  findAllVarsAux cmd.length none [] cmd

theorem isVarCharRest_ne_special (ch : Char) (h : isVarCharRest ch = true) :
    ch ≠ '\\' ∧ ch ≠ '\'' ∧ ch ≠ '"' ∧ ch ≠ '$' := by
  refine ⟨?_, ?_, ?_, ?_⟩ <;> (intro he; subst he; exact absurd h (by decide))

theorem varName_chars (name : Str) (h : takeVarName name = name) :
    ∀ ch ∈ name, isVarCharRest ch = true := by
  match name with
  | [] => intro ch hch; simp at hch
  | c :: tl =>
    by_cases hf : isVarCharFirst c = true
    · have htl : tl.takeWhile isVarCharRest = tl := by
        have h' := h
        simp only [takeVarName, hf, if_true, List.cons.injEq] at h'
        exact h'.2
      intro ch hch
      rcases List.mem_cons.mp hch with rfl | hm
      · simp [isVarCharRest, hf]
      · exact List.takeWhile_eq_self_iff.mp htl ch hm
    · exfalso
      simp only [takeVarName, hf] at h
      simp at h

theorem takeWhile_append_eq (p : Char → Bool) (l t : Str) (hl : ∀ ch ∈ l, p ch = true)
    (ht : t = [] ∨ ∃ d t', t = d :: t' ∧ p d = false) :
    (l ++ t).takeWhile p = l := by
  induction l with
  | nil =>
    rcases ht with rfl | ⟨d, t', rfl, hd⟩
    · rfl
    · simp [List.takeWhile_cons, hd]
  | cons c l' ih =>
    have hc : p c = true := hl c (by simp)
    simp only [List.cons_append, List.takeWhile_cons, hc, if_true]
    rw [ih (fun ch hch => hl ch (by simp [hch]))]

theorem takeVarName_append (name t : Str) (hname : takeVarName name = name)
    (hne : name ≠ []) (ht : t = [] ∨ ∃ d t', t = d :: t' ∧ isVarCharRest d = false) :
    takeVarName (name ++ t) = name := by
  match name with
  | c :: tl =>
    by_cases hf : isVarCharFirst c = true
    · have hchars := varName_chars (c :: tl) hname
      simp only [List.cons_append, takeVarName, hf, if_true, List.cons.injEq]
      refine ⟨trivial, ?_⟩
      exact takeWhile_append_eq _ tl t (fun ch hch => hchars ch (by simp [hch])) ht
    · exfalso
      simp only [takeVarName, hf] at hname
      simp at hname

end Cheatmd
namespace Cheatmd

theorem findAllVarsAux_varchars (l : Str) :
    ∀ fuel prev seen, (∀ ch ∈ l, isVarCharRest ch = true) →
    findAllVarsAux fuel prev seen l = [] := by
  induction l with
  | nil => intro fuel prev seen _; cases fuel <;> rfl
  | cons c rest ih =>
    intro fuel prev seen hall
    cases fuel with
    | zero => rfl
    | succ f =>
      have hc := isVarCharRest_ne_special c (hall c (by simp))
      have e4 : (c == '$') = false := by simp [hc.2.2.2]
      simp [findAllVarsAux, e4, ih f (some c) seen (fun ch hch => hall ch (by simp [hch]))]

/-- The used set computed by collectVariables in the current
internal/ui/resolve.go (the version whose Run signature main.go calls):
the line reading usedVars := findAllVars(cheat.Command). -/
def usedVars (command : Str) : List Str := findAllVars command

/-- Claim C3 (amended): the used set computed from the command template by
collectVariables via findAllVars counts dollar-references regardless of
quoting: a reference inside single quotes is counted, a reference inside
double quotes is counted, a bare reference is counted, and only an escaped
dollar is not counted. -/
theorem claim_C3 (name : Str) (h : takeVarName name = name) (hne : name ≠ []) :
    usedVars (('\'' :: '$' :: name) ++ ['\'']) = [name]
    ∧ usedVars ('\\' :: '$' :: name) = []
    ∧ usedVars (('"' :: '$' :: name) ++ ['"']) = [name]
    ∧ usedVars ('$' :: name) = [name] := by
  have hchars := varName_chars name h
  have hie : name.isEmpty = false := by simpa [List.isEmpty_iff] using hne
  have d4 : (('$' : Char) == '$') = true := by decide
  have q1 : (('\'' : Char) == '$') = false := by decide
  have q2 : (('"' : Char) == '$') = false := by decide
  have o1 : ((some '\'' : Option Char) == some '\\') = false := by decide
  have o2 : ((some '"' : Option Char) == some '\\') = false := by decide
  have o3 : ((none : Option Char) == some '\\') = false := by decide
  have hcon : (([] : List Str).contains name) = false := rfl
  refine ⟨?_, ?_, ?_, ?_⟩
  · show findAllVarsAux ((('\'' :: '$' :: name) ++ ['\'']).length) none []
        (('\'' :: '$' :: name) ++ ['\'']) = [name]
    rw [show (('\'' :: '$' :: name) ++ ['\'']).length = (name.length + 2) + 1 from by simp]
    rw [show ('\'' :: '$' :: name) ++ ['\''] = '\'' :: ('$' :: (name ++ ['\''])) from by simp]
    rw [show findAllVarsAux ((name.length + 2) + 1) none []
          ('\'' :: ('$' :: (name ++ ['\''])))
        = findAllVarsAux (name.length + 2) (some '\'') []
            ('$' :: (name ++ ['\''])) from rfl]
    have hTA : takeVarName (name ++ ['\'']) = name :=
      takeVarName_append name ['\''] h hne (Or.inr ⟨'\'', [], rfl, by decide⟩)
    have hne2 : (name ++ ['\'']).isEmpty = false := by simp
    simp only [findAllVarsAux, d4, q1, o1, hTA, hne2, hie, hcon,
      Bool.false_and, Bool.true_and, Bool.and_true, Bool.and_false, Bool.not_false,
      Bool.not_true, if_false, if_true, Bool.false_eq_true, ite_false, ite_true,
      List.drop_left]
  · show findAllVarsAux (name.length + 2) none [] ('\\' :: '$' :: name) = []
    rw [show findAllVarsAux (name.length + 2) none [] ('\\' :: '$' :: name) =
        findAllVarsAux (name.length + 1) (some '\\') [] ('$' :: name) from rfl]
    have hcond : ((('$' : Char) == '$') && !name.isEmpty &&
        !((some '\\' : Option Char) == some '\\')) = false := by
      simp
    simp only [findAllVarsAux, hcond, Bool.false_eq_true, ite_false, if_false]
    exact findAllVarsAux_varchars name name.length (some '$') [] hchars
  · show findAllVarsAux ((('"' :: '$' :: name) ++ ['"']).length) none []
        (('"' :: '$' :: name) ++ ['"']) = [name]
    rw [show (('"' :: '$' :: name) ++ ['"']).length = (name.length + 2) + 1 from by simp]
    rw [show ('"' :: '$' :: name) ++ ['"'] = '"' :: ('$' :: (name ++ ['"'])) from by simp]
    rw [show findAllVarsAux ((name.length + 2) + 1) none []
          ('"' :: ('$' :: (name ++ ['"'])))
        = findAllVarsAux (name.length + 2) (some '"') []
            ('$' :: (name ++ ['"'])) from rfl]
    have hTA : takeVarName (name ++ ['"']) = name :=
      takeVarName_append name ['"'] h hne (Or.inr ⟨'"', [], rfl, by decide⟩)
    have hne2 : (name ++ ['"']).isEmpty = false := by simp
    simp only [findAllVarsAux, d4, q2, o2, hTA, hne2, hie, hcon,
      Bool.false_and, Bool.true_and, Bool.and_true, Bool.and_false, Bool.not_false,
      Bool.not_true, if_false, if_true, Bool.false_eq_true, ite_false, ite_true,
      List.drop_left]
  · show findAllVarsAux (('$' :: name).length) none [] ('$' :: name) = [name]
    rw [show ('$' :: name).length = name.length + 1 from by simp]
    simp only [findAllVarsAux, d4, o3, h, hie, hcon,
      Bool.false_and, Bool.true_and, Bool.and_true, Bool.and_false, Bool.not_false,
      Bool.not_true, if_false, if_true, Bool.false_eq_true, ite_false, ite_true,
      List.drop_length]

/-- Claim C3 counterexample: for the command template consisting of a
single-quoted dollar-reference to u, the used set computed by the program
contains u - a reference inside single quotes is counted, contrary to the
claim's single-quote exclusion. -/
theorem claim_C3_counterexample :
    usedVars (('\'' :: '$' :: ['u']) ++ ['\'']) = [['u']] := by decide

/-- Witness for claim C3 at the one-letter variable name u. -/
theorem claim_C3_witness :
    usedVars (('\'' :: '$' :: ['u']) ++ ['\'']) = [['u']]
    ∧ usedVars ('\\' :: '$' :: ['u']) = []
    ∧ usedVars (('"' :: '$' :: ['u']) ++ ['"']) = [['u']]
    ∧ usedVars ('$' :: ['u']) = [['u']] :=
  claim_C3 ['u'] (by decide) (by decide)

end Cheatmd
namespace Cheatmd

/-- internal/parser/parser.go codeBlock. -/
structure CodeBlockR where
  lang : Str
  content : Str
  description : Str
deriving DecidableEq

/-- The cheat fields produced by internal/parser/parser.go createCheat that
the parsing claims refer to; the annotation text is kept raw (the DSL fields,
file path and tags are not referenced by these claims). -/
structure ParsedCheat where
  header : Str
  description : Str
  command : Str
  cheatBlock : Str
  hasCheatBlock : Bool
deriving DecidableEq

/-- internal/parser/parser.go parseState. -/
structure ParseStateR where
  currentHeader : Str := []
  inCodeBlock : Bool := false
  codeBlockLang : Str := []
  codeBlockDesc : Str := []
  codeBlockBuf : Str := []
  inCheatBlock : Bool := false
  cheatBlockBuf : Str := []
  pendingCodeBlocks : List CodeBlockR := []
deriving DecidableEq

/-- internal/parser/parser.go trimSpaceBytes: trims space, tab, newline and
carriage return at both ends. -/
def isTrimByte (c : Char) : Bool :=
  c == ' ' || c == '\t' || c == '\n' || c == '\r'

/-- internal/parser/parser.go trimSpaceBytes. -/
def trimSpaceBytes (b : Str) : Str :=
  ((b.dropWhile isTrimByte).reverse.dropWhile isTrimByte).reverse

/-- internal/parser/parser.go parseHeader: one to six hashes, a space, then a
non-empty header text. -/
def parseHeader (line : Str) : Option Str :=
  let i := (line.takeWhile (fun c => c == '#')).length
  if i == 0 || 6 < i then none
  else
    match line.drop i with
    | ' ' :: rest => if rest.isEmpty then none else some rest
    | _ => none

/-- Whitespace of Go's regexp Perl class (backslash-s): tab, newline, form
feed, carriage return, space. -/
def isRegexSpace (c : Char) : Bool :=
  c == '\t' || c == '\n' || c == '\x0c' || c == '\r' || c == ' '

/-- The regex fallback of internal/parser/parser.go parseCodeBlockStart for
lines containing a title: three backticks, word-character language, then
optionally whitespace and a quoted title, then trailing whitespace. -/
def matchCodeBlockTitle (line : Str) : Option (Str × Str) :=
  let rest := line.drop 3
  let lang := rest.takeWhile isWordChar
  let r1 := rest.drop lang.length
  if r1.all isRegexSpace then some (lang, [])
  else
    let sp := r1.takeWhile isRegexSpace
    if sp.isEmpty then none
    else
      let r2 := r1.drop sp.length
      if r2.take 7 == ['t', 'i', 't', 'l', 'e', ':', '"'] then
        let r3 := r2.drop 7
        let desc := r3.takeWhile (fun c => !(c == '"'))
        match r3.drop desc.length with
        | '"' :: r5 => if r5.all isRegexSpace then some (lang, desc) else none
        | _ => none
      else none

/-- internal/parser/parser.go parseCodeBlockStart: fast path without a title
token takes the word characters following the backticks as the language; a
line containing a title falls back to the regex. -/
def parseCodeBlockStart (line : Str) : Option (Str × Str) :=
  if line.take 3 == ['`', '`', '`'] then
    let rest := line.drop 3
    if !containsSub rest ['t', 'i', 't', 'l', 'e', ':'] then
      some (rest.takeWhile isWordChar, [])
    else matchCodeBlockTitle line
  else none

/-- internal/parser/parser.go parseCheatSingleLine. -/
def parseCheatSingleLine (line : Str) : Option Str :=
  if line.length < 15 then none
  else if !(['<', '!', '-', '-'].isPrefixOf line) then none
  else if !(['-', '-', '>'].isSuffixOf line) then none
  else
    let inner := trimSpace ((line.drop 4).take (line.length - 7))
    if inner.length < 5 then none
    else if lowerStr (inner.take 5) == ['c', 'h', 'e', 'a', 't'] then
      some (trimSpace (inner.drop 5))
    else none

/-- internal/parser/parser.go isCheatStart. -/
def isCheatStart (line : Str) : Bool :=
  decide (10 ≤ line.length) && ['<', '!', '-', '-'].isPrefixOf line &&
    (lowerStr (trimSpace (line.drop 4)) == ['c', 'h', 'e', 'a', 't'])

/-- internal/parser/parser.go isCheatEnd. -/
def isCheatEnd (line : Str) : Bool :=
  trimSpace line == ['-', '-', '>']

/-- internal/parser/parser.go IsShellLanguage. -/
def isShellLanguage (lang : Str) : Bool :=
  let l := lowerStr lang
  !(l == strL ("mermaid") || l == strL ("dot") || l == strL ("chart"))

/-- internal/parser/parser.go createCheat on the modelled fields: the
description is trimmed, the command is stored verbatim. -/
def createCheat (header description command cheatBlock : Str)
    (hasCheatBlock : Bool) : ParsedCheat :=
  { header := header, description := trimSpace description, command := command,
    cheatBlock := cheatBlock, hasCheatBlock := hasCheatBlock }

/-- internal/parser/parser.go processPendingBlocks: flush pending code blocks
of a section as header-only cheats when their language is shell-like and the
content is non-empty. -/
def processPendingBlocks (header : Str) (blocks : List CodeBlockR) : List ParsedCheat :=
  blocks.filterMap (fun b =>
    if isShellLanguage b.lang && !b.content.isEmpty then
      some (createCheat header b.description b.content [] false)
    else none)

/-- internal/parser/parser.go processCheatComment: attach a single-line cheat
comment to the most recent pending code block. -/
def processCheatComment (s : ParseStateR) (content : Str) :
    ParseStateR × List ParsedCheat :=
  match s.pendingCodeBlocks.getLast? with
  | none => (s, [])
  | some block =>
    (⟨s.currentHeader, s.inCodeBlock, s.codeBlockLang, s.codeBlockDesc, s.codeBlockBuf,
      s.inCheatBlock, s.cheatBlockBuf, s.pendingCodeBlocks.dropLast⟩,
     [createCheat s.currentHeader block.description block.content content true])

/-- internal/parser/parser.go processCheatBlock: attach the accumulated cheat
block to the most recent pending code block; a standalone block declares a
module only and emits no cheat. -/
def processCheatBlock (s : ParseStateR) : ParseStateR × List ParsedCheat :=
  match s.pendingCodeBlocks.getLast? with
  | some block =>
    (⟨s.currentHeader, s.inCodeBlock, s.codeBlockLang, s.codeBlockDesc, s.codeBlockBuf,
      s.inCheatBlock, s.cheatBlockBuf, s.pendingCodeBlocks.dropLast⟩,
     [createCheat s.currentHeader block.description block.content s.cheatBlockBuf true])
  | none => (s, [])

/-- internal/parser/parser.go parseLine, returning the updated state and the
cheats emitted by this line. -/
def parseLine (line : Str) (s : ParseStateR) : ParseStateR × List ParsedCheat :=
  if s.inCodeBlock then
    if line == ['`', '`', '`'] then
      let content := trimSpaceBytes s.codeBlockBuf
      if !content.isEmpty then
        (⟨s.currentHeader, false, s.codeBlockLang, s.codeBlockDesc, s.codeBlockBuf,
          s.inCheatBlock, s.cheatBlockBuf,
          s.pendingCodeBlocks ++ [⟨s.codeBlockLang, content, s.codeBlockDesc⟩]⟩, [])
      else ({ s with inCodeBlock := false }, [])
    else ({ s with codeBlockBuf := s.codeBlockBuf ++ line ++ ['\n'] }, [])
  else if s.inCheatBlock then
    if line.take 2 == ['-', '-'] && isCheatEnd line then
      processCheatBlock { s with inCheatBlock := false }
    else ({ s with cheatBlockBuf := s.cheatBlockBuf ++ line ++ ['\n'] }, [])
  else
    match line with
    | [] => (s, [])
    | first :: _ =>
      if first == '#' then
        match parseHeader line with
        | some h =>
          (⟨h, s.inCodeBlock, s.codeBlockLang, s.codeBlockDesc, s.codeBlockBuf,
            s.inCheatBlock, s.cheatBlockBuf, []⟩,
           processPendingBlocks s.currentHeader s.pendingCodeBlocks)
        | none => (s, [])
      else if first == '`' && line.take 3 == ['`', '`', '`'] then
        match parseCodeBlockStart line with
        | some ld =>
          (⟨s.currentHeader, true, ld.1, ld.2, [],
            s.inCheatBlock, s.cheatBlockBuf, s.pendingCodeBlocks⟩, [])
        | none => (s, [])
      else if first == '<' then
        match parseCheatSingleLine line with
        | some content => processCheatComment s content
        | none =>
          if isCheatStart line then
            ({ s with inCheatBlock := true, cheatBlockBuf := [] }, [])
          else (s, [])
      else (s, [])

/-- Splitting a document at newlines, keeping empty segments, as the byte
loop of internal/parser/parser.go parseLines does. -/
def splitNl : Str → List Str
  | [] => [[]]
  | c :: rest =>
    if c == '\n' then [] :: splitNl rest
    else
      match splitNl rest with
      | l :: ls => (c :: l) :: ls
      | [] => [[c]]

/-- The per-line carriage-return strip of parseLines (end > start and the
last byte before the newline is CR). -/
def stripCR (line : Str) : Str :=
  if line.getLast? == some '\r' then line.dropLast else line

/-- The lines a document is processed as. -/
def splitDocLines (data : Str) : List Str := (splitNl data).map stripCR

/-- The line loop of internal/parser/parser.go parseLines: run parseLine over
each line in order, collecting the emitted cheats, then flush the remaining
pending blocks at the end of the document. -/
def runParse : List Str → ParseStateR → List ParsedCheat
  | [], s => processPendingBlocks s.currentHeader s.pendingCodeBlocks
  | line :: rest, s =>
    let p := parseLine line s
    p.2 ++ runParse rest p.1

/-- internal/parser/parser.go parseLines on a pre-split document. -/
def parseDocLines (lines : List Str) : List ParsedCheat := runParse lines {}

/-- internal/parser/parser.go parseLines from raw document bytes. -/
def parseLines (data : Str) : List ParsedCheat := parseDocLines (splitDocLines data)

end Cheatmd
namespace Cheatmd
/-- Evaluation check: a header-only shell block becomes one snippet with the
trimmed body. -/
theorem parseDocLines_headerOnly_eval :
    parseDocLines [strL ("```sh"), strL (" echo hi"), strL ("```")] =
      [⟨[], [], strL ("echo hi"), [], false⟩] := by decide

/-- Evaluation check: an annotation block attaches to the preceding code
block and the section header is recorded. -/
theorem parseDocLines_annotation_eval :
    parseDocLines [strL ("## Echo"), strL ("```sh"), strL ("echo $name"), strL ("```"),
        strL ("<!-- cheat"), strL ("var name"), strL ("-->")] =
      [⟨strL ("Echo"), [], strL ("echo $name"), strL ("var name\n"), true⟩] := by decide

/-- Evaluation check: raw-document parsing splits on newlines. -/
theorem parseLines_raw_eval :
    parseLines (strL ("```sh\na b\n```\n")) = [⟨[], [], strL ("a b"), [], false⟩] := by
  decide
end Cheatmd
namespace Cheatmd

/-- The code-block body as accumulated by the parser: each line followed by a
newline. -/
def joinNl : List Str → Str
  | [] => []
  | l :: ls => l ++ ['\n'] ++ joinNl ls

theorem parseLine_body (line : Str) (hne : line ≠ ['`', '`', '`'])
    (hdr lang desc buf chBuf : Str) (chB : Bool) (pend : List CodeBlockR) :
    parseLine line ⟨hdr, true, lang, desc, buf, chB, chBuf, pend⟩ =
      (⟨hdr, true, lang, desc, buf ++ line ++ ['\n'], chB, chBuf, pend⟩, []) := by
  have hb : (line == ['`', '`', '`']) = false := by simpa using hne
  simp [parseLine, hb]

theorem parseLine_close (hdr lang desc buf chBuf : Str) (chB : Bool)
    (pend : List CodeBlockR) (hne : trimSpaceBytes buf ≠ []) :
    parseLine ['`', '`', '`'] ⟨hdr, true, lang, desc, buf, chB, chBuf, pend⟩ =
      (⟨hdr, false, lang, desc, buf, chB, chBuf,
        pend ++ [⟨lang, trimSpaceBytes buf, desc⟩]⟩, []) := by
  have h2 : (trimSpaceBytes buf).isEmpty = false := by
    simpa [List.isEmpty_iff] using hne
  simp [parseLine, h2]

theorem runParse_body (bodyLines : List Str)
    (hb : ∀ l ∈ bodyLines, l ≠ ['`', '`', '`']) (t : List Str)
    (hdr lang desc buf chBuf : Str) (chB : Bool) (pend : List CodeBlockR) :
    runParse (bodyLines ++ t) ⟨hdr, true, lang, desc, buf, chB, chBuf, pend⟩ =
      runParse t ⟨hdr, true, lang, desc, buf ++ joinNl bodyLines, chB, chBuf, pend⟩ := by
  induction bodyLines generalizing buf with
  | nil => simp [joinNl]
  | cons l ls ih =>
    show (parseLine l ⟨hdr, true, lang, desc, buf, chB, chBuf, pend⟩).2 ++
        runParse (ls ++ t) (parseLine l ⟨hdr, true, lang, desc, buf, chB, chBuf, pend⟩).1 = _
    rw [parseLine_body l (hb l (by simp)) hdr lang desc buf chBuf chB pend]
    show runParse (ls ++ t) ⟨hdr, true, lang, desc, buf ++ l ++ ['\n'], chB, chBuf, pend⟩ = _
    rw [ih (fun x hx => hb x (by simp [hx])) (buf ++ l ++ ['\n'])]
    have hj : buf ++ l ++ ['\n'] ++ joinNl ls = buf ++ joinNl (l :: ls) := by
      simp [joinNl]
    rw [hj]

/-- Claim C4 (amended): a shell code block's snippet command is the
code-block body joined with newlines and then trimmed of leading and
trailing whitespace by trimSpaceBytes (blocks whose trimmed body is empty
are dropped); the parser does not store the body verbatim. -/
theorem claim_C4 (bodyLines : List Str)
    (hb : ∀ l ∈ bodyLines, l ≠ ['`', '`', '`'])
    (hne : trimSpaceBytes (joinNl bodyLines) ≠ []) :
    parseDocLines ((strL ("```sh")) :: bodyLines ++ [['`', '`', '`']]) =
      [⟨[], [], trimSpaceBytes (joinNl bodyLines), [], false⟩] := by
  show runParse (bodyLines ++ [['`', '`', '`']])
      ⟨[], true, strL ("sh"), [], [], false, [], []⟩ = _
  rw [runParse_body bodyLines hb [['`', '`', '`']] [] (strL ("sh")) [] [] [] false []]
  simp only [List.nil_append]
  show (parseLine ['`', '`', '`']
        ⟨[], true, strL ("sh"), [], joinNl bodyLines, false, [], []⟩).2 ++
      runParse []
        (parseLine ['`', '`', '`']
          ⟨[], true, strL ("sh"), [], joinNl bodyLines, false, [], []⟩).1 = _
  rw [parseLine_close [] (strL ("sh")) [] (joinNl bodyLines) [] false [] hne]
  show processPendingBlocks []
      [⟨strL ("sh"), trimSpaceBytes (joinNl bodyLines), []⟩] = _
  have hsh : isShellLanguage (strL ("sh")) = true := by decide
  have hneb : (trimSpaceBytes (joinNl bodyLines)).isEmpty = false := by
    simpa [List.isEmpty_iff] using hne
  simp [processPendingBlocks, hsh, hneb, hne, createCheat, trimSpace, trimLeftSpace,
    trimRightSpace]

/-- Claim C4 counterexample: for the document whose code-block body is the
single line " echo hi " the produced command is the trimmed text, not the
verbatim body. -/
theorem claim_C4_counterexample :
    parseDocLines [strL ("```sh"), strL (" echo hi "), strL ("```")] =
      [⟨[], [], strL ("echo hi"), [], false⟩]
    ∧ strL ("echo hi") ≠ strL (" echo hi ")
    ∧ strL ("echo hi") ≠ strL (" echo hi \n") :=
  ⟨by decide, by decide, by decide⟩

/-- Witness for claim C4 at the single body line " echo hi ". -/
theorem claim_C4_witness :
    parseDocLines ((strL ("```sh")) :: [strL (" echo hi ")] ++ [['`', '`', '`']]) =
      [⟨[], [], trimSpaceBytes (joinNl [strL (" echo hi ")]), [], false⟩] :=
  claim_C4 [strL (" echo hi ")] (by decide) (by decide)

end Cheatmd
namespace Cheatmd

/-- internal/ui/main_model.go cheatItem: the snippet plus its display
metadata (leaf folder name and bare file stem, computed by newCheatItem from
the file path). -/
structure CheatItem where
  folder : Str
  file : Str
  header : Str
  description : Str
  command : Str
deriving DecidableEq

/-- internal/ui/main_model.go containsIgnoreCase: a length guard, then a
substring test against the lower-cased field (the word is already
lower-cased by the caller). -/
def containsIgnoreCase (s substr : Str) : Bool :=
  if s.length < substr.length then false
  else containsSub (lowerStr s) substr

/-- internal/ui/main_model.go containsWord: any of the five fields contains
the word. -/
def containsWord (item : CheatItem) (word : Str) : Bool :=
  containsIgnoreCase item.folder word || containsIgnoreCase item.file word ||
  containsIgnoreCase item.header word || containsIgnoreCase item.description word ||
  containsIgnoreCase item.command word

/-- internal/ui/main_model.go matchesQuery: every word must be contained. -/
def matchesQuery (item : CheatItem) (words : List Str) : Bool :=
  words.all (fun w => containsWord item w)

/-- The result loop of internal/ui/main_model.go filterCheats: append
matching items, stopping once 1000 results are collected. -/
def filterLoop (words : List Str) : List CheatItem → Nat → List CheatItem
  | [], _ => []
  | c :: rest, count =>
    if matchesQuery c words then
      if 1000 ≤ count + 1 then [c]
      else c :: filterLoop words rest (count + 1)
    else filterLoop words rest count

/-- internal/ui/main_model.go filterCheats: an empty trimmed query keeps
every cheat; otherwise the query is lower-cased and split into words and the
capped loop runs. -/
def filterCheats (queryRaw : Str) (cheats : List CheatItem) : List CheatItem :=
  let query := trimSpace queryRaw
  if query.isEmpty then cheats
  else filterLoop (fields (lowerStr query)) cheats 0

theorem filterLoop_eq_take (words : List Str) (l : List CheatItem) :
    ∀ count, count < 1000 →
    filterLoop words l count =
      (l.filter (fun c => matchesQuery c words)).take (1000 - count) := by
  induction l with
  | nil => intro count _; simp [filterLoop]
  | cons c rest ih =>
    intro count hc
    by_cases hm : matchesQuery c words = true
    · rw [show filterLoop words (c :: rest) count =
          (if 1000 ≤ count + 1 then [c]
           else c :: filterLoop words rest (count + 1)) from by
        simp [filterLoop, hm]]
      rw [show (c :: rest).filter (fun c => matchesQuery c words) =
          c :: rest.filter (fun c => matchesQuery c words) from
        List.filter_cons_of_pos hm]
      by_cases hcap : 1000 ≤ count + 1
      · have h1 : 1000 - count = 1 := by omega
        rw [if_pos hcap, h1]
        simp
      · have hlt : count + 1 < 1000 := by omega
        rw [if_neg hcap, ih (count + 1) hlt]
        have h2 : 1000 - count = (1000 - (count + 1)) + 1 := by omega
        rw [h2]
        simp [List.take_succ_cons]
    · have hm' : matchesQuery c words = false := by simpa using hm
      rw [show filterLoop words (c :: rest) count = filterLoop words rest count from by
        simp [filterLoop, hm']]
      rw [show (c :: rest).filter (fun c => matchesQuery c words) =
          rest.filter (fun c => matchesQuery c words) from
        List.filter_cons_of_neg (by simp [hm'])]
      rw [ih count hc]

theorem containsSub_iff_infix (s pat : Str) :
    containsSub s pat = true ↔ pat <:+: s := by
  induction s with
  | nil =>
    simp [containsSub, List.isEmpty_iff, List.infix_nil]
  | cons c rest ih =>
    simp only [containsSub, Bool.or_eq_true, List.isPrefixOf_iff_prefix, ih,
      List.infix_cons_iff]

theorem containsIgnoreCase_iff_infix (s w : Str) :
    containsIgnoreCase s w = true ↔ w <:+: lowerStr s := by
  unfold containsIgnoreCase
  by_cases hl : s.length < w.length
  · rw [if_pos hl]
    constructor
    · intro hf; exact absurd hf (by simp)
    · intro hinf
      exfalso
      have := hinf.length_le
      simp only [lowerStr, List.length_map] at this
      omega
  · rw [if_neg hl]
    exact containsSub_iff_infix _ _

/-- The field list of containsWord, in the order the source checks them. -/
def itemFields (item : CheatItem) : List Str :=
  [item.folder, item.file, item.header, item.description, item.command]

theorem containsWord_iff (item : CheatItem) (w : Str) :
    containsWord item w = true ↔ ∃ f ∈ itemFields item, w <:+: lowerStr f := by
  simp only [containsWord, Bool.or_eq_true, containsIgnoreCase_iff_infix, itemFields]
  constructor
  · intro h
    rcases h with ((((h | h) | h) | h) | h)
    · exact ⟨item.folder, by simp, h⟩
    · exact ⟨item.file, by simp, h⟩
    · exact ⟨item.header, by simp, h⟩
    · exact ⟨item.description, by simp, h⟩
    · exact ⟨item.command, by simp, h⟩
  · rintro ⟨f, hf, hinf⟩
    simp only [List.mem_cons, List.not_mem_nil, or_false] at hf
    rcases hf with rfl | rfl | rfl | rfl | rfl
    · exact Or.inl (Or.inl (Or.inl (Or.inl hinf)))
    · exact Or.inl (Or.inl (Or.inl (Or.inr hinf)))
    · exact Or.inl (Or.inl (Or.inr hinf))
    · exact Or.inl (Or.inr hinf)
    · exact Or.inr hinf

theorem matchesQuery_iff (item : CheatItem) (words : List Str) :
    matchesQuery item words = true ↔
      ∀ w ∈ words, ∃ f ∈ itemFields item, w <:+: lowerStr f := by
  simp only [matchesQuery, List.all_eq_true, containsWord_iff]

theorem filterCheats_eq_take (q : Str) (cheats : List CheatItem)
    (h : trimSpace q ≠ []) :
    filterCheats q cheats =
      (cheats.filter
        (fun c => matchesQuery c (fields (lowerStr (trimSpace q))))).take 1000 := by
  have hie : (trimSpace q).isEmpty = false := by simpa [List.isEmpty_iff] using h
  rw [show filterCheats q cheats =
      filterLoop (fields (lowerStr (trimSpace q))) cheats 0 from by
    simp [filterCheats, hie]]
  rw [filterLoop_eq_take _ _ 0 (by omega), Nat.sub_zero]

/-- Claim C6 (amended): a query that trims to empty (including
whitespace-only queries) returns every snippet with no cap; a query with at
least one word returns, in index order and capped at 1000, exactly the
snippets for which every word is a case-insensitive substring of the leaf
folder name, the bare file stem, the header, the description or the command
template; the empty word set matches every snippet. -/
theorem claim_C6 (queryRaw : Str) (cheats : List CheatItem) :
    (trimSpace queryRaw = [] → filterCheats queryRaw cheats = cheats)
    ∧ (trimSpace queryRaw ≠ [] →
        filterCheats queryRaw cheats =
          (cheats.filter (fun item =>
            decide (∀ w ∈ fields (lowerStr (trimSpace queryRaw)),
              ∃ f ∈ itemFields item, w <:+: lowerStr f))).take 1000)
    ∧ (∀ item, matchesQuery item [] = true) := by
  refine ⟨fun h => ?_, fun h => ?_, fun item => by simp [matchesQuery]⟩
  · simp [filterCheats, h]
  · rw [filterCheats_eq_take queryRaw cheats h]
    apply congrArg (List.take 1000)
    apply List.filter_congr
    intro item _
    by_cases hm : matchesQuery item (fields (lowerStr (trimSpace queryRaw))) = true
    · rw [hm]
      exact (decide_eq_true ((matchesQuery_iff _ _).mp hm)).symm
    · have hm' : matchesQuery item (fields (lowerStr (trimSpace queryRaw))) = false := by
        simpa using hm
      rw [hm']
      have : ¬ ∀ w ∈ fields (lowerStr (trimSpace queryRaw)),
          ∃ f ∈ itemFields item, w <:+: lowerStr f := by
        intro hall
        exact hm ((matchesQuery_iff _ _).mpr hall)
      exact (decide_eq_false this).symm

/-- Claim C6 counterexample: the non-empty query of one space trims to
empty, so with 1001 snippets the filtered result has 1001 elements, more
than the claimed cap of 1000. -/
theorem claim_C6_counterexample :
    1000 < (filterCheats [' ']
      (List.replicate 1001 (⟨[], [], ['a'], [], []⟩ : CheatItem))).length := by
  have h : filterCheats [' ']
      (List.replicate 1001 (⟨[], [], ['a'], [], []⟩ : CheatItem)) =
      List.replicate 1001 (⟨[], [], ['a'], [], []⟩ : CheatItem) := by
    simp [filterCheats, trimSpace, trimLeftSpace, trimRightSpace, isGoSpace]
  rw [h, List.length_replicate]
  omega

/-- Witness for claim C6 at the query "a b" and a two-snippet list. -/
theorem claim_C6_witness :
    filterCheats (strL ("a b")) [⟨[], [], strL ("ab"), [], []⟩, ⟨[], [], ['a'], [], []⟩] =
      ([⟨[], [], strL ("ab"), [], []⟩, ⟨[], [], ['a'], [], []⟩].filter
        (fun item => decide (∀ w ∈ fields (lowerStr (trimSpace (strL ("a b")))),
          ∃ f ∈ itemFields item, w <:+: lowerStr f))).take 1000 :=
  (claim_C6 (strL ("a b"))
    [⟨[], [], strL ("ab"), [], []⟩, ⟨[], [], ['a'], [], []⟩]).2.1 (by decide)

end Cheatmd
namespace Cheatmd

theorem matchesQuery_append_word (item : CheatItem) (ws : List Str) (w : Str)
    (h : matchesQuery item (ws ++ [w]) = true) : matchesQuery item ws = true := by
  simp only [matchesQuery, List.all_append, Bool.and_eq_true] at h
  exact h.1

theorem fields_ne_nil_of_trim_ne (q : Str) (h : trimSpace q = []) :
    fields (lowerStr (trimSpace q)) = [] := by
  rw [h]
  rfl

/-- Claim C7 (amended): adding a word never grows the set of matching
snippets, and the returned (capped) list for the longer query is a subset of
the returned list for the original query whenever at most 1000 snippets match
the original query; with more than 1000 matches the 1000-cap can shift the
returned window, admitting a snippet the original result had cut off. -/
theorem claim_C7 (cheats : List CheatItem) (ws : List Str) (w : Str) :
    (cheats.filter (fun c => matchesQuery c (ws ++ [w]))) ⊆
      (cheats.filter (fun c => matchesQuery c ws))
    ∧ (∀ q1 q2 : Str,
        fields (lowerStr (trimSpace q1)) = ws →
        fields (lowerStr (trimSpace q2)) = ws ++ [w] →
        (cheats.filter (fun c => matchesQuery c ws)).length ≤ 1000 →
        filterCheats q2 cheats ⊆ filterCheats q1 cheats) := by
  have hsub : (cheats.filter (fun c => matchesQuery c (ws ++ [w]))) ⊆
      (cheats.filter (fun c => matchesQuery c ws)) := by
    intro x hx
    rw [List.mem_filter] at hx ⊢
    exact ⟨hx.1, matchesQuery_append_word x ws w hx.2⟩
  refine ⟨hsub, fun q1 q2 hq1 hq2 hlen => ?_⟩
  have hq2ne : trimSpace q2 ≠ [] := by
    intro hz
    have := fields_ne_nil_of_trim_ne q2 hz
    rw [hq2] at this
    simp at this
  have h2 : filterCheats q2 cheats ⊆
      cheats.filter (fun c => matchesQuery c (ws ++ [w])) := by
    rw [filterCheats_eq_take q2 cheats hq2ne, hq2]
    exact List.take_subset 1000 _
  by_cases hq1z : trimSpace q1 = []
  · rw [show filterCheats q1 cheats = cheats from by simp [filterCheats, hq1z]]
    intro x hx
    exact List.filter_subset' cheats (hsub (h2 hx))
  · rw [filterCheats_eq_take q1 cheats hq1z, hq1,
      List.take_of_length_le hlen]
    intro x hx
    exact hsub (h2 hx)

/-- Decimal digits of a natural number, used to give the counterexample
snippets distinct descriptions. -/
def natToDigitsAux : Nat → Nat → Str
  | 0, _ => []
  | fuel+1, n =>
    if n < 10 then [Char.ofNat (48 + n)]
    else natToDigitsAux fuel (n / 10) ++ [Char.ofNat (48 + n % 10)]

/-- Decimal representation of a natural number. -/
def natToDigits (n : Nat) : Str := natToDigitsAux (n + 1) n

/-- The i-th counterexample snippet: header matches both words, description
makes the snippets pairwise distinct. -/
def c7item (i : Nat) : CheatItem := ⟨[], [], ['a', 'b'], natToDigits i, []⟩

/-- 1002 snippets: one matching only the word a, then 1001 matching both a
and b. -/
def c7cheats : List CheatItem :=
  (⟨[], [], ['a'], ['x'], []⟩ : CheatItem) :: (List.range 1001).map c7item

set_option maxRecDepth 100000 in
/-- Claim C7 counterexample: with 1002 snippets of which 1001 match both
words, the query with one extra word returns a snippet (the both-word match
at index 999) that the original query's capped result had cut off, so the
longer query's result is not a subset of the original one. -/
theorem claim_C7_counterexample :
    ¬ (filterCheats (strL ("a b")) c7cheats ⊆ filterCheats ['a'] c7cheats) := by
  intro hsub
  have h1 : c7item 999 ∈ filterCheats (strL ("a b")) c7cheats := by decide
  have h2 : c7item 999 ∉ filterCheats ['a'] c7cheats := by decide
  exact h2 (hsub h1)

/-- Witness for claim C7 at the queries "a" and "a b" over a two-snippet
list. -/
theorem claim_C7_witness :
    filterCheats (strL ("a b")) [⟨[], [], strL ("ab"), [], []⟩, ⟨[], [], ['a'], [], []⟩] ⊆
      filterCheats ['a'] [⟨[], [], strL ("ab"), [], []⟩, ⟨[], [], ['a'], [], []⟩] :=
  (claim_C7 [⟨[], [], strL ("ab"), [], []⟩, ⟨[], [], ['a'], [], []⟩] [['a']] ['b']).2
    ['a'] (strL ("a b")) (by decide) (by decide) (by decide)

end Cheatmd
namespace Cheatmd

theorem replaceAllAux_of_not_contains (pat rep s : Str)
    (h : containsSub s pat = false) :
    ∀ fuel, replaceAllAux pat rep fuel s = s := by
  induction s with
  | nil => intro fuel; cases fuel <;> rfl
  | cons c rest ih =>
    intro fuel
    cases fuel with
    | zero => rfl
    | succ f =>
      have h' := h
      simp only [containsSub, Bool.or_eq_false_iff] at h'
      simp [replaceAllAux, h'.1, ih h'.2 f]

theorem replaceAll_of_not_contains (s pat rep : Str) (h : containsSub s pat = false) :
    replaceAll s pat rep = s :=
  replaceAllAux_of_not_contains pat rep s h s.length

theorem substituteVars_of_no_refs (s : Str) (scope : Scope)
    (h : ∀ p ∈ scope, containsSub s ('$' :: p.1) = false) :
    substituteVars s scope = s := by
  induction scope with
  | nil => rfl
  | cons q rest ih =>
    show substituteVars (replaceAll s ('$' :: q.1) q.2) rest = s
    rw [replaceAll_of_not_contains s _ _ (h q (by simp))]
    exact ih (fun p hp => h p (by simp [hp]))

/-- Claim C8 (amended): substituting a scope into a command is idempotent
provided the once-substituted command contains no remaining dollar-reference
to a scope key; the same holds for the full final-command build provided its
result additionally contains no escaped dollar.  (In general a scope value
may itself contain a dollar-reference to another key, which a second
application substitutes, so unconditional idempotence fails.) -/
theorem claim_C8 (command : Str) (scope : Scope) :
    ((∀ p ∈ scope, containsSub (substituteVars command scope) ('$' :: p.1) = false) →
      substituteVars (substituteVars command scope) scope = substituteVars command scope)
    ∧ ((∀ p ∈ scope, containsSub (buildFinalCommand command scope) ('$' :: p.1) = false) →
       containsSub (buildFinalCommand command scope) escDollar = false →
      buildFinalCommand (buildFinalCommand command scope) scope =
        buildFinalCommand command scope) := by
  refine ⟨fun h => substituteVars_of_no_refs _ scope h, fun h1 h2 => ?_⟩
  show replaceAll (substituteVars (buildFinalCommand command scope) scope) escDollar ['$'] = _
  rw [substituteVars_of_no_refs _ scope h1]
  exact replaceAll_of_not_contains _ _ _ h2

/-- Claim C8 counterexample: with the scope assigning b the value x and a
the value consisting of a dollar-reference to b (applied in that order, as a
Go map iteration may), one substitution of the command holding only a
reference to a yields the reference to b, while a second substitution yields
x: substitution is not idempotent as claimed. -/
theorem claim_C8_counterexample :
    substituteVars ['$', 'a'] [(['b'], ['x']), (['a'], ['$', 'b'])] = ['$', 'b']
    ∧ substituteVars (substituteVars ['$', 'a'] [(['b'], ['x']), (['a'], ['$', 'b'])])
        [(['b'], ['x']), (['a'], ['$', 'b'])] = ['x']
    ∧ (['$', 'b'] : Str) ≠ ['x'] :=
  ⟨by decide, by decide, by decide⟩

/-- Witness for claim C8 at the command "echo $x" and scope x = 1. -/
theorem claim_C8_witness :
    substituteVars (substituteVars (strL ("echo $x")) [(['x'], ['1'])]) [(['x'], ['1'])] =
      substituteVars (strL ("echo $x")) [(['x'], ['1'])]
    ∧ buildFinalCommand (buildFinalCommand (strL ("echo $x")) [(['x'], ['1'])])
        [(['x'], ['1'])] = buildFinalCommand (strL ("echo $x")) [(['x'], ['1'])] :=
  ⟨(claim_C8 (strL ("echo $x")) [(['x'], ['1'])]).1 (by decide),
   (claim_C8 (strL ("echo $x")) [(['x'], ['1'])]).2 (by decide) (by decide)⟩

end Cheatmd
namespace Cheatmd

theorem replaceAllAux_nil (pat rep : Str) (fuel : Nat) :
    replaceAllAux pat rep fuel [] = [] := by
  cases fuel <;> rfl

theorem replaceAllAux_step_pos (pat rep : Str) (fuel : Nat) (c : Char) (rest : Str)
    (h : pat.isPrefixOf (c :: rest) = true) (hne : pat ≠ []) :
    replaceAllAux pat rep (fuel + 1) (c :: rest) =
      rep ++ replaceAllAux pat rep fuel (rest.drop (pat.length - 1)) := by
  have hne' : pat.isEmpty = false := by simpa [List.isEmpty_iff] using hne
  simp [replaceAllAux, h, hne']

theorem replaceAllAux_step_neg (pat rep : Str) (fuel : Nat) (c : Char) (rest : Str)
    (h : pat.isPrefixOf (c :: rest) = false) :
    replaceAllAux pat rep (fuel + 1) (c :: rest) =
      c :: replaceAllAux pat rep fuel rest := by
  simp [replaceAllAux, h]

theorem not_containsSub_of_head_notin (s : Str) (c : Char) (t : Str)
    (h : ∀ ch ∈ s, ch ≠ c) : containsSub s (c :: t) = false := by
  induction s with
  | nil => rfl
  | cons d rest ih =>
    have hd : ((c : Char) == d) = false := by
      cases hcd : ((c : Char) == d) with
      | false => rfl
      | true => exact absurd (eq_of_beq hcd).symm (h d (by simp))
    show (((c :: t).isPrefixOf (d :: rest)) || containsSub rest (c :: t)) = false
    rw [List.isPrefixOf_cons₂, hd]
    simp [ih (fun ch hch => h ch (by simp [hch]))]


/-- Claim C10: BuildFinalCommand substitutes every textual occurrence of a
scope key's dollar-reference, including one preceded by a backslash, and only
afterwards rewrites remaining escaped dollars: an escaped reference whose
name is in the scope is substituted in the final output (first conjunct,
leaving the stray backslash), although findAllVars treats it as escaped and
does not count it as a reference (second conjunct); with the name absent
from the scope the escape is rewritten to a plain dollar (third conjunct). -/
theorem claim_C10 (name v : Str) (h : takeVarName name = name) (hne : name ≠ [])
    (hv1 : ∀ t, v ≠ '$' :: t) (hv2 : containsSub v escDollar = false) :
    buildFinalCommand ('\\' :: '$' :: name) [(name, v)] = '\\' :: v
    ∧ findAllVars ('\\' :: '$' :: name) = []
    ∧ buildFinalCommand ('\\' :: '$' :: name) [] = '$' :: name := by
  have hchars := varName_chars name h
  have hie : name.isEmpty = false := by simpa [List.isEmpty_iff] using hne
  have hpre : name.isPrefixOf name = true :=
    List.isPrefixOf_iff_prefix.mpr (List.prefix_refl _)
  have b1 : (('$' : Char) == '\\') = false := by decide
  refine ⟨?_, ?_, ?_⟩
  · show replaceAll (substituteVars ('\\' :: '$' :: name) [(name, v)]) escDollar ['$'] = _
    have hp : ('$' :: name).isPrefixOf ('$' :: name) = true := by
      rw [List.isPrefixOf_cons₂]
      simp [hpre]
    have h1 : substituteVars ('\\' :: '$' :: name) [(name, v)] = '\\' :: v := by
      show replaceAllAux ('$' :: name) v (name.length + 2) ('\\' :: '$' :: name) = '\\' :: v
      rw [show (name.length + 2 : Nat) = (name.length + 1) + 1 from rfl]
      rw [replaceAllAux_step_neg ('$' :: name) v (name.length + 1) '\\' ('$' :: name)
        (by rw [List.isPrefixOf_cons₂, b1]; rfl)]
      rw [show (name.length + 1 : Nat) = name.length + 1 from rfl]
      rw [replaceAllAux_step_pos ('$' :: name) v name.length '$' name hp (by simp)]
      rw [show ('$' :: name).length - 1 = name.length from by simp]
      rw [List.drop_length, replaceAllAux_nil]
      simp
    rw [h1]
    show replaceAllAux escDollar ['$'] (v.length + 1) ('\\' :: v) = '\\' :: v
    have hp2 : escDollar.isPrefixOf ('\\' :: v) = false := by
      match v, hv1 with
      | [], _ => rfl
      | c :: t, hv1 =>
        have hcne : (('$' : Char) == c) = false := by
          cases hcd : (('$' : Char) == c) with
          | false => rfl
          | true =>
            exfalso
            exact hv1 t (by rw [← eq_of_beq hcd])
        show ((['\\', '$'] : Str).isPrefixOf ('\\' :: c :: t)) = false
        rw [List.isPrefixOf_cons₂, List.isPrefixOf_cons₂, hcne]
        simp
    rw [replaceAllAux_step_neg escDollar ['$'] v.length '\\' v hp2]
    rw [replaceAllAux_of_not_contains escDollar ['$'] v hv2 v.length]
  · show findAllVarsAux (name.length + 2) none [] ('\\' :: '$' :: name) = []
    rw [show findAllVarsAux (name.length + 2) none [] ('\\' :: '$' :: name) =
        findAllVarsAux (name.length + 1) (some '\\') [] ('$' :: name) from rfl]
    have hcond : ((('$' : Char) == '$') && !name.isEmpty &&
        !((some '\\' : Option Char) == some '\\')) = false := by
      simp
    simp only [findAllVarsAux, hcond, Bool.false_eq_true, ite_false, if_false]
    exact findAllVarsAux_varchars name name.length (some '$') [] hchars
  · show replaceAll (substituteVars ('\\' :: '$' :: name) []) escDollar ['$'] = _
    show replaceAllAux escDollar ['$'] (name.length + 2) ('\\' :: '$' :: name) = _
    have hp3 : escDollar.isPrefixOf ('\\' :: '$' :: name) = true := by
      show (['\\', '$'] : Str).isPrefixOf ('\\' :: '$' :: name) = true
      rw [List.isPrefixOf_cons₂, List.isPrefixOf_cons₂, List.isPrefixOf_nil_left]
      decide
    rw [show (name.length + 2 : Nat) = (name.length + 1) + 1 from rfl]
    rw [replaceAllAux_step_pos escDollar ['$'] (name.length + 1) '\\' ('$' :: name) hp3
      (by simp [escDollar])]
    rw [show (escDollar.length - 1 : Nat) = 1 from by decide]
    rw [show (('$' :: name).drop 1) = name from rfl]
    rw [replaceAllAux_of_not_contains escDollar ['$'] name
      (not_containsSub_of_head_notin name '\\' ['$']
        (fun ch hch => (isVarCharRest_ne_special ch (hchars ch hch)).1))
      (name.length + 1)]
    rfl

/-- Witness for claim C10 at the name x and value 1. -/
theorem claim_C10_witness :
    buildFinalCommand ('\\' :: '$' :: ['x']) [(['x'], ['1'])] = '\\' :: ['1']
    ∧ findAllVars ('\\' :: '$' :: ['x']) = []
    ∧ buildFinalCommand ('\\' :: '$' :: ['x']) [] = '$' :: ['x'] :=
  claim_C10 ['x'] ['1'] (by decide) (by decide)
    (fun t he => by simp at he) (by decide)

end Cheatmd
namespace Cheatmd

/-- The per-variable resolver state of internal/ui/resolve.go varState
(the fields the prefill claims use). -/
structure VarStateR where
  name : Str
  prefill : Str := []
  skipAutoCont : Bool := false
deriving DecidableEq

/-- The prefill pass of internal/ui/main_model.go
startVarResolutionInternal: a non-empty value already in the snippet scope
(pre-seeded by the match flag) becomes the prefill and sets
skipAutoCont; otherwise a non-empty ambient environment variable of the
same name becomes the prefill. -/
def prefillVar (scope env : Scope) (v : VarStateR) : VarStateR :=
  if !(lookupScope scope v.name).isEmpty then
    ⟨v.name, lookupScope scope v.name, true⟩
  else if !(lookupScope env v.name).isEmpty then
    ⟨v.name, lookupScope env v.name, v.skipAutoCont⟩
  else v

/-- The auto-continue test of internal/ui/main_model.go prepareCurrentVar:
accept the prefill without prompting only when auto-continue is on, a
prefill exists and the variable is not marked skipAutoCont. -/
def autoAccepted (autoContinue : Bool) (v : VarStateR) : Bool :=
  autoContinue && !v.prefill.isEmpty && !v.skipAutoCont

/-- Modelled from the spec: the element language of the regular expression
that internal/ui/main_model.go buildMatchPattern compiles a command template
into via Go's regexp package (an external library): a literal run, a greedy
non-whitespace capture group, or an optional whitespace run. -/
inductive PatElem where
  | lit (s : Str)
  | capNonSpace
  | wsStar
deriving DecidableEq

/-- Modelled from the spec: backtracking search for a greedy capture - try
the longest non-whitespace run first, shortening down to one character. -/
def capSearch (f : Str → Option (List Str)) (s : Str) : Nat → Option (List Str)
  | 0 => none
  | k+1 =>
    match f (s.drop (k + 1)) with
    | some caps => some (s.take (k + 1) :: caps)
    | none => capSearch f s k

/-- Modelled from the spec: backtracking search for a greedy whitespace run -
try the longest run first, down to the empty run. -/
def wsSearch (f : Str → Option (List Str)) (s : Str) : Nat → Option (List Str)
  | 0 => f s
  | k+1 =>
    match f (s.drop (k + 1)) with
    | some r => some r
    | none => wsSearch f s k

/-- Modelled from the spec: anchored leftmost-first matching of the pattern
buildMatchPattern produces, as Go's regexp engine performs it, returning the
capture groups. -/
def matchPat : List PatElem → Str → Option (List Str)
  | [], s => if s.isEmpty then some [] else none
  | .lit l :: rest, s =>
    if l.isPrefixOf s then matchPat rest (s.drop l.length) else none
  | .wsStar :: rest, s => wsSearch (matchPat rest) s (s.takeWhile isGoSpace).length
  | .capNonSpace :: rest, s =>
    capSearch (matchPat rest) s (s.takeWhile (fun c => !isGoSpace c)).length

/-- The pattern buildMatchPattern produces for the template
"ssh dollar-user at dollar-host": optional surrounding whitespace, the
literal "ssh ", a capture, the literal at sign, a capture. -/
def sshPattern : List PatElem :=
  [.wsStar, .lit (strL ("ssh ")), .capNonSpace, .lit ['@'], .capNonSpace, .wsStar]

/-- The loop of internal/ui/main_model.go extractVarNames: every
dollar-sign-and-word-characters match, in order of appearance,
deduplicated. -/
def extractVarNamesAux : Nat → List Str → Str → List Str
  | _, _, [] => []
  | 0, _, _ => []
  | fuel+1, seen, c :: rest =>
    if c == '$' then
      if (rest.takeWhile isWordChar).isEmpty then extractVarNamesAux fuel seen rest
      else if seen.contains (rest.takeWhile isWordChar) then
        extractVarNamesAux fuel seen (rest.drop (rest.takeWhile isWordChar).length)
      else
        rest.takeWhile isWordChar ::
          extractVarNamesAux fuel (rest.takeWhile isWordChar :: seen)
            (rest.drop (rest.takeWhile isWordChar).length)
    else extractVarNamesAux fuel seen rest

/-- internal/ui/main_model.go extractVarNames. -/
def extractVarNames (cmd : Str) : List Str :=
  extractVarNamesAux cmd.length [] cmd

/-- Go map assignment scope[k] = v on the association-list model. -/
def insertScope (scope : Scope) (k v : Str) : Scope :=
  if scope.any (fun p => p.1 == k) then
    scope.map (fun p => if p.1 == k then (k, v) else p)
  else scope ++ [(k, v)]

/-- internal/ui/main_model.go prefillScopeFromMatch: trim the input, match
it against the command's pattern, and store the capture groups under the
variable names in order of appearance. -/
def prefillScopeFromMatch (command : Str) (pat : List PatElem) (input : Str)
    (scope : Scope) : Scope :=
  match matchPat pat (trimSpace input) with
  | none => scope
  | some caps =>
    ((extractVarNames command).zip caps).foldl
      (fun sc p => insertScope sc p.1 p.2) scope

/-- Claim C5 (amended): matching the input against the ssh template
pre-populates the scope with the captured values (first conjunct); a
variable whose name holds a non-empty scope value enters resolution with
that value as prefill and skipAutoCont set, so it is never auto-accepted -
it stays confirmable even when auto-continue is on (second and third
conjuncts); auto-continue only auto-accepts environment-derived prefills
(fourth conjunct). -/
theorem claim_C5 (scope env : Scope) (v : VarStateR) (autoContinue : Bool)
    (h : lookupScope scope v.name ≠ []) :
    prefillScopeFromMatch (strL ("ssh $user@$host")) sshPattern
        (strL ("ssh alice@example.com")) [] =
      [(strL ("user"), strL ("alice")), (strL ("host"), strL ("example.com"))]
    ∧ (prefillVar scope env v).prefill = lookupScope scope v.name
    ∧ (prefillVar scope env v).skipAutoCont = true
    ∧ autoAccepted autoContinue (prefillVar scope env v) = false
    ∧ (∀ w : VarStateR, lookupScope scope w.name = [] →
        lookupScope env w.name ≠ [] → w.skipAutoCont = false →
        autoAccepted true (prefillVar scope env w) = true) := by
  have hie : (lookupScope scope v.name).isEmpty = false := by
    simpa [List.isEmpty_iff] using h
  have hpv : prefillVar scope env v = ⟨v.name, lookupScope scope v.name, true⟩ := by
    simp [prefillVar, hie]
  refine ⟨by decide, by rw [hpv], by rw [hpv], ?_, ?_⟩
  · rw [hpv]
    simp [autoAccepted]
  · intro w hw1 hw2 hw3
    have hie1 : (lookupScope scope w.name).isEmpty = true := by simp [hw1]
    have hie2 : (lookupScope env w.name).isEmpty = false := by
      simpa [List.isEmpty_iff] using hw2
    have hpw : prefillVar scope env w = ⟨w.name, lookupScope env w.name, w.skipAutoCont⟩ := by
      simp [prefillVar, hie1, hie2]
    rw [hpw]
    simp [autoAccepted, hie2, hw3]

/-- Claim C5 counterexample: after the match pre-seeds user = alice, the
user variable enters resolution with skipAutoCont set, and even with
auto-continue enabled it is not accepted without prompting - the claim's
"every pre-populated variable is accepted without prompting" fails. -/
theorem claim_C5_counterexample :
    (prefillVar
        (prefillScopeFromMatch (strL ("ssh $user@$host")) sshPattern
          (strL ("ssh alice@example.com")) [])
        [] ⟨strL ("user"), [], false⟩).skipAutoCont = true
    ∧ autoAccepted true
        (prefillVar
          (prefillScopeFromMatch (strL ("ssh $user@$host")) sshPattern
            (strL ("ssh alice@example.com")) [])
          [] ⟨strL ("user"), [], false⟩) = false :=
  ⟨by decide, by decide⟩

/-- Witness for claim C5 at the pre-seeded scope user = alice. -/
theorem claim_C5_witness :
    prefillScopeFromMatch (strL ("ssh $user@$host")) sshPattern
        (strL ("ssh alice@example.com")) [] =
      [(strL ("user"), strL ("alice")), (strL ("host"), strL ("example.com"))]
    ∧ (prefillVar [(strL ("user"), strL ("alice"))] [] ⟨strL ("user"), [], false⟩).prefill =
        lookupScope [(strL ("user"), strL ("alice"))] (strL ("user"))
    ∧ (prefillVar [(strL ("user"), strL ("alice"))] []
        ⟨strL ("user"), [], false⟩).skipAutoCont = true
    ∧ autoAccepted true
        (prefillVar [(strL ("user"), strL ("alice"))] [] ⟨strL ("user"), [], false⟩) = false
    ∧ (∀ w : VarStateR, lookupScope [(strL ("user"), strL ("alice"))] w.name = [] →
        lookupScope [] w.name ≠ [] → w.skipAutoCont = false →
        autoAccepted true (prefillVar [(strL ("user"), strL ("alice"))] [] w) = true) :=
  claim_C5 [(strL ("user"), strL ("alice"))] [] ⟨strL ("user"), [], false⟩ true (by decide)

end Cheatmd
namespace Cheatmd

/-- internal/parser/parser.go Module, restricted to the fields the duplicate
claims read (NewModule copies the cheat's export name and file). -/
structure ModuleR where
  name : Str
  file : Str
deriving DecidableEq

/-- internal/parser/parser.go DuplicateExport. -/
structure DuplicateExport where
  name : Str
  file1 : Str
  file2 : Str
deriving DecidableEq

/-- The cheat fields read by RegisterModule. -/
structure CheatForModule where
  exportName : Str
  file : Str
deriving DecidableEq

/-- internal/parser/parser.go CheatIndex, on the fields the module claims
use; the Go name-to-module map is an association list. -/
structure CheatIndexR where
  modules : List (Str × ModuleR) := []
  duplicates : List DuplicateExport := []
deriving DecidableEq

/-- Reading Modules[name]. -/
def lookupModule (mods : List (Str × ModuleR)) (n : Str) : Option ModuleR :=
  match mods.find? (fun p => p.1 == n) with
  | some p => some p.2
  | none => none

/-- Go map assignment Modules[name] = module on the association-list model:
replace the entry in place, or append a new one. -/
def insertModule : List (Str × ModuleR) → Str → ModuleR → List (Str × ModuleR)
  | [], n, m => [(n, m)]
  | q :: rest, n, m =>
    if q.1 == n then (n, m) :: rest else q :: insertModule rest n m

/-- internal/parser/parser.go RegisterModule: nothing without an export
name; an existing module of the same name appends a DuplicateExport record
with both file paths; the map always takes the later definition. -/
def registerModule (idx : CheatIndexR) (c : CheatForModule) : CheatIndexR :=
  if c.exportName.isEmpty then idx
  else
    match lookupModule idx.modules c.exportName with
    | some existing =>
      ⟨insertModule idx.modules c.exportName ⟨c.exportName, c.file⟩,
       idx.duplicates ++ [⟨c.exportName, existing.file, c.file⟩]⟩
    | none =>
      ⟨insertModule idx.modules c.exportName ⟨c.exportName, c.file⟩, idx.duplicates⟩

/-- internal/parser/parser.go parseResult: a worker's cheats (opaque here)
and modules; the per-file Duplicates of the worker's local index are not
part of it. -/
structure ParseResultR where
  cheats : List Str
  modules : List (Str × ModuleR)
deriving DecidableEq

/-- The module merge of internal/parser/parser.go mergeResults for one parse
result: record a duplicate when the name is already in the shared index, and
let the later definition win. -/
def mergeOne (idx : CheatIndexR) (mods : List (Str × ModuleR)) : CheatIndexR :=
  mods.foldl
    (fun i p =>
      match lookupModule i.modules p.1 with
      | some existing =>
        ⟨insertModule i.modules p.1 p.2, i.duplicates ++ [⟨p.1, existing.file, p.2.file⟩]⟩
      | none => ⟨insertModule i.modules p.1 p.2, i.duplicates⟩)
    idx

/-- internal/parser/parser.go mergeResults: concatenate all cheats and merge
every result's modules into the index. -/
def mergeResults (idx : CheatIndexR) (results : List ParseResultR) :
    CheatIndexR × List Str :=
  (results.foldl (fun i r => mergeOne i r.modules) idx,
   results.foldl (fun cs r => cs ++ r.cheats) [])

/-- The worker loop of internal/parser/parser.go parseFilesParallel (lines
aggregating localCheats and localModules): per parsed file the worker
appends the cheats and assigns each module into its local map, silently
overwriting same-name modules and discarding the file-local duplicate
records. -/
def workerCollect (files : List ParseResultR) : ParseResultR :=
  files.foldl
    (fun acc f =>
      ⟨acc.cheats ++ f.cheats,
       f.modules.foldl (fun ms p => insertModule ms p.1 p.2) acc.modules⟩)
    ⟨[], []⟩

theorem lookupModule_insert (mods : List (Str × ModuleR)) (n : Str) (m : ModuleR) :
    lookupModule (insertModule mods n m) n = some m := by
  induction mods with
  | nil => simp [insertModule, lookupModule, List.find?]
  | cons q rest ih =>
    by_cases hq : (q.1 == n) = true
    · simp [insertModule, hq, lookupModule, List.find?]
    · have hq' : (q.1 == n) = false := by simpa using hq
      simp only [insertModule, hq', Bool.false_eq_true, ite_false, if_false]
      simp only [lookupModule, List.find?, hq'] at ih ⊢
      exact ih

/-- Claim C9 (amended): when a module registers an already-taken export name
sequentially through RegisterModule, a DuplicateExport with both file paths
is appended and the later definition wins in the module map (first and
second conjuncts); the same holds at merge time when the same name arrives
from two different parse results (third and fourth conjuncts).  When both
same-name modules are collected by one worker, the worker's map silently
keeps the later definition and no duplicate is recorded (the
counterexample). -/
theorem claim_C9 (idx : CheatIndexR) (c : CheatForModule) (m : ModuleR)
    (n : Str) (m1 m2 : ModuleR)
    (h1 : lookupModule idx.modules c.exportName = some m)
    (h2 : c.exportName ≠ []) :
    (registerModule idx c).duplicates =
      idx.duplicates ++ [⟨c.exportName, m.file, c.file⟩]
    ∧ lookupModule (registerModule idx c).modules c.exportName =
        some ⟨c.exportName, c.file⟩
    ∧ (mergeResults ⟨[], []⟩ [⟨[], [(n, m1)]⟩, ⟨[], [(n, m2)]⟩]).1.duplicates =
        [⟨n, m1.file, m2.file⟩]
    ∧ lookupModule
        (mergeResults ⟨[], []⟩ [⟨[], [(n, m1)]⟩, ⟨[], [(n, m2)]⟩]).1.modules n =
        some m2 := by
  have hie : c.exportName.isEmpty = false := by simpa [List.isEmpty_iff] using h2
  have hreg : registerModule idx c =
      ⟨insertModule idx.modules c.exportName ⟨c.exportName, c.file⟩,
       idx.duplicates ++ [⟨c.exportName, m.file, c.file⟩]⟩ := by
    simp [registerModule, hie, h1]
  have hnn : (n == n) = true := by simp
  have hmerge : (mergeResults ⟨[], []⟩ [⟨[], [(n, m1)]⟩, ⟨[], [(n, m2)]⟩]).1 =
      ⟨(n, m2) :: [], [⟨n, m1.file, m2.file⟩]⟩ := by
    show mergeOne (mergeOne ⟨[], []⟩ [(n, m1)]) [(n, m2)] = _
    rw [show mergeOne (⟨[], []⟩ : CheatIndexR) [(n, m1)] =
        (⟨[(n, m1)], []⟩ : CheatIndexR) from rfl]
    simp only [mergeOne, List.foldl_cons, List.foldl_nil]
    rw [show lookupModule [(n, m1)] n = some m1 from by
      simp [lookupModule, List.find?, hnn]]
    simp [insertModule, hnn]
  refine ⟨by rw [hreg], ?_, by rw [hmerge], by rw [hmerge]; simp [lookupModule, List.find?, hnn]⟩
  rw [hreg]
  exact lookupModule_insert idx.modules c.exportName ⟨c.exportName, c.file⟩

/-- Claim C9 counterexample: two files exporting the same module name parsed
by the same worker produce a merged index with the later definition and no
DuplicateExport record, although the claim promises a record whenever an
already-taken export name is registered again. -/
theorem claim_C9_counterexample :
    (mergeResults ⟨[], []⟩
        [workerCollect
          [⟨[strL ("c1")], [(strL ("m"), ⟨strL ("m"), strL ("f1")⟩)]⟩,
           ⟨[strL ("c2")], [(strL ("m"), ⟨strL ("m"), strL ("f2")⟩)]⟩]]).1.duplicates = []
    ∧ lookupModule
        (mergeResults ⟨[], []⟩
          [workerCollect
            [⟨[strL ("c1")], [(strL ("m"), ⟨strL ("m"), strL ("f1")⟩)]⟩,
             ⟨[strL ("c2")], [(strL ("m"), ⟨strL ("m"), strL ("f2")⟩)]⟩]]).1.modules
        (strL ("m")) = some ⟨strL ("m"), strL ("f2")⟩ :=
  ⟨by decide, by decide⟩

/-- Witness for claim C9 at a concrete one-module index. -/
theorem claim_C9_witness :
    (registerModule ⟨[(strL ("m"), ⟨strL ("m"), strL ("f1")⟩)], []⟩
        ⟨strL ("m"), strL ("f2")⟩).duplicates =
      [] ++ [⟨strL ("m"), strL ("f1"), strL ("f2")⟩]
    ∧ lookupModule
        (registerModule ⟨[(strL ("m"), ⟨strL ("m"), strL ("f1")⟩)], []⟩
          ⟨strL ("m"), strL ("f2")⟩).modules (strL ("m")) =
        some ⟨strL ("m"), strL ("f2")⟩
    ∧ (mergeResults ⟨[], []⟩
        [⟨[], [(strL ("x"), ⟨strL ("x"), strL ("g1")⟩)]⟩,
         ⟨[], [(strL ("x"), ⟨strL ("x"), strL ("g2")⟩)]⟩]).1.duplicates =
        [⟨strL ("x"), strL ("g1"), strL ("g2")⟩]
    ∧ lookupModule
        (mergeResults ⟨[], []⟩
          [⟨[], [(strL ("x"), ⟨strL ("x"), strL ("g1")⟩)]⟩,
           ⟨[], [(strL ("x"), ⟨strL ("x"), strL ("g2")⟩)]⟩]).1.modules (strL ("x")) =
        some ⟨strL ("x"), strL ("g2")⟩ :=
  claim_C9 ⟨[(strL ("m"), ⟨strL ("m"), strL ("f1")⟩)], []⟩
    ⟨strL ("m"), strL ("f2")⟩ ⟨strL ("m"), strL ("f1")⟩
    (strL ("x")) ⟨strL ("x"), strL ("g1")⟩ ⟨strL ("x"), strL ("g2")⟩
    (by decide) (by decide)

end Cheatmd
